import Mathlib

/-!
Verification of the SwiftS3 documentation-coverage analyzer
(`analyze_docs.py`) against its natural-language specification.

The script has two parts:

* `analyze_file`: reads a file's lines, collects the 0-based indices of
  lines matching the regular expression
  `^\s*(public\s+|private\s+|internal\s+|fileprivate\s+)?(static\s+)?(func\s+\w+|init\s*\()`,
  and counts how many of those indices have the substring `///` somewhere
  in the ten preceding lines (`lines[max(0, i-10):i]`).

* a main loop: walks a fixed directory, runs `analyze_file` on every
  `.swift` file, prints `basename: docs/funcs (pct%)` per file while
  accumulating totals, and finally prints a blank line followed by
  `Overall: td/tf (pct%)`.

The embedding below models a file as a `List String` of its lines and the
directory walk's qualifying files as a `List (String × List String)` of
(base name, lines) pairs, in traversal order.  `os.path.basename` applied
to `os.path.join(root, file)` returns `file` itself (names produced by
`os.walk` contain no separator), so file names are taken directly as base
names.  Python's `\s` and `\w` character classes are modelled on their
ASCII fragments (the spec and all claims only concern ASCII source text).
-/

/-! ## Character classes (ASCII fragments of Python's `\s` and `\w`) -/

/-- ASCII whitespace as matched by Python's regex class backslash-s:
space, tab, newline, carriage return, vertical tab, form feed. -/
def pySpace (c : Char) : Bool :=
  c == ' ' || c == '\t' || c == '\n' || c == '\r' || c == '\x0b' || c == '\x0c'

/-- ASCII word characters as matched by Python's regex class backslash-w:
letters, digits and underscore. -/
def pyWord (c : Char) : Bool :=
  c.isAlphanum || c == '_'

/-! ## The declaration matcher

The regular expression
`^\s*(public\s+|private\s+|internal\s+|fileprivate\s+)?(static\s+)?(func\s+\w+|init\s*\()`
is embedded as a committed left-to-right matcher.  Committing (never
backtracking) is faithful here: every optional group is a keyword literal
followed by mandatory whitespace, the token after each whitespace run
starts with a non-whitespace character, no alternative keyword is a prefix
of a string accepted by a later alternative, and a group that matches
consumes a keyword that the subsequent groups can never match, so the
backtracking engine and the committed matcher accept the same lines. -/

/-- Consume an exact literal prefix, returning the rest of the input. -/
def dropLit : List Char → List Char → Option (List Char)
  | [], cs => some cs
  | _ :: _, [] => none
  | k :: ks, c :: cs => if c == k then dropLit ks cs else none

/-- Consume one or more whitespace characters (regex `\s+`), greedily. -/
def wsPlus : List Char → Option (List Char)
  | [] => none
  | c :: cs => if pySpace c then some (cs.dropWhile pySpace) else none

/-- Consume a keyword literal followed by mandatory whitespace. -/
def kwWS (kw cs : List Char) : Option (List Char) :=
  (dropLit kw cs).bind wsPlus

/-- Optional visibility group `(public\s+|private\s+|internal\s+|fileprivate\s+)?`,
alternatives tried in the regex's order; on failure nothing is consumed. -/
def tryVis (cs : List Char) : List Char :=
  match kwWS "public".toList cs with
  | some r => r
  | none =>
    match kwWS "private".toList cs with
    | some r => r
    | none =>
      match kwWS "internal".toList cs with
      | some r => r
      | none =>
        match kwWS "fileprivate".toList cs with
        | some r => r
        | none => cs

/-- Optional group `(static\s+)?`. -/
def tryStatic (cs : List Char) : List Char :=
  match kwWS "static".toList cs with
  | some r => r
  | none => cs

/-- Alternative `func\s+\w+`: the literal `func`, whitespace, a word char. -/
def funcBranch (cs : List Char) : Bool :=
  match kwWS "func".toList cs with
  | some (c :: _) => pyWord c
  | _ => false

/-- Alternative `init\s*\(`: the literal `init`, optional whitespace, `(`. -/
def initBranch (cs : List Char) : Bool :=
  match dropLit "init".toList cs with
  | some r =>
    match r.dropWhile pySpace with
    | '(' :: _ => true
    | _ => false
  | none => false

/-- The regex body after the leading `^\s*` has been consumed. -/
def declCore (cs : List Char) : Bool :=
  let cs2 := tryStatic (tryVis cs)
  funcBranch cs2 || initBranch cs2

/-- One line of `analyze_file`'s loop body: `re.match(pattern, line)`
viewed as a Boolean.  `re.match` anchors at the start of the line and the
pattern begins with `^\s*`, so leading whitespace is stripped first. -/
def isDecl (line : String) : Bool :=
  declCore (line.toList.dropWhile pySpace)

/-! ## `analyze_file` -/

/-- The substring test `'///' in line`. -/
def hasTripleSlash : List Char → Bool
  | '/' :: '/' :: '/' :: _ => true
  | _ :: rest => hasTripleSlash rest
  | [] => false

/-- Whether a line contains the documentation marker `///` anywhere. -/
def hasDocMarker (line : String) : Bool :=
  hasTripleSlash line.toList

/-- The `func_lines` list built by `analyze_file`'s enumerate loop,
started at index `n`: indices of lines matching the declaration regex. -/
def declIndicesFrom : ℕ → List String → List ℕ
  | _, [] => []
  | n, l :: rest =>
    if isDecl l then n :: declIndicesFrom (n + 1) rest
    else declIndicesFrom (n + 1) rest

/-- `func_lines`: the 0-based indices of declaration lines. -/
def declIndices (lines : List String) : List ℕ :=
  declIndicesFrom 0 lines

/-- The Python slice `lines[max(0, i-10):i]`: drop `max(0, i-10)` lines
(truncated subtraction on `ℕ` is exactly the clipped `max(0, i-10)`),
then take `i - max(0, i-10)` lines. -/
def window (lines : List String) (i : ℕ) : List String :=
  (lines.drop (i - 10)).take (i - (i - 10))

/-- The lookback test of `analyze_file`:
`any('///' in line for line in lines[max(0, i-10):i])`. -/
def isDocumented (lines : List String) (i : ℕ) : Bool :=
  (window lines i).any hasDocMarker

/-- `analyze_file` as a function of the file's lines: total declaration
count, and the count of declarations whose lookback window contains the
marker (the source's increment loop is a count over `func_lines`). -/
def analyze (lines : List String) : ℕ × ℕ :=
  ((declIndices lines).length,
    (declIndices lines).countP fun i => isDocumented lines i)

/-! ## The aggregator (main loop)

The percentage is computed by the source in IEEE-754 binary64: the true
division `docs / funcs` (CPython's `long_true_divide` returns the
correctly rounded double of the exact quotient), the multiplication
`* 100` (100 is exactly representable, the product is correctly rounded),
and the rendering `f'{x:.1f}'` (CPython formats the double's exact value,
rounding half to even).  Nonnegative finite doubles are represented below
as pairs `(m, e) : ℕ × ℤ` of value `m * 2^e`; both rounding steps are
modelled exactly with the standard guard-and-sticky technique.  Exponents
are not clamped: the subnormal threshold would need a quotient below
`2^(-1022)`, i.e. a declaration total beyond `10^307`, unreachable for
line counts of real files, and overflow would need a quotient above
`10^306`, impossible since `documented ≤ total` (claim C3). -/

/-- Number of binary digits of `n` (0 for 0), via structural fuel so that
the kernel can evaluate it; `bitsFuel n n` is enough fuel since the
argument at least halves each step. -/
def bitsFuel : ℕ → ℕ → ℕ
  | 0, _ => 0
  | fuel + 1, n => if n = 0 then 0 else bitsFuel fuel (n / 2) + 1

/-- Bit length of a natural number. -/
def bitlen (n : ℕ) : ℕ := bitsFuel n n

/-- Round a positive integer `q`, together with a sticky bit recording
whether any nonzero bits were discarded below `q`'s last place, to a
53-bit mantissa, nearest, ties to even.  Returns `(m, sh)` with the
rounded value `m * 2^sh` in `q`'s scale.  When `q` has at most 53 bits
the callers guarantee the sticky bit is false (the value is exact), so
returning `q` unchanged is correct; when `q` is longer, at least one bit
is dropped, so the discarded part is `low + sticky` against the half
point `2^(extra-1)` and the comparison below is the exact
round-to-nearest-even decision. -/
def roundMantissa (q : ℕ) (sticky : Bool) : ℕ × ℤ :=
  let b := bitlen q
  if b ≤ 53 then (q, 0)
  else
    let extra := b - 53
    let m0 := q / 2 ^ extra
    let low := q % 2 ^ extra
    let half := 2 ^ (extra - 1)
    let m1 :=
      if half < low then m0 + 1
      else if low < half then m0
      else if sticky then m0 + 1
      else if m0 % 2 = 1 then m0 + 1 else m0
    if m1 = 2 ^ 53 then (2 ^ 52, (extra : ℤ) + 1) else (m1, (extra : ℤ))

/-- The correctly rounded binary64 quotient `d / t` (Python's int/int
true division) as `(m, e)` of value `m * 2^e`, for `t > 0`.  The scale
`s = 55 + bitlen t - bitlen d` puts the scaled integer quotient
`q = floor(d * 2^s / t)` in `(2^54, 2^56)`, so 2 or 3 bits are dropped by
`roundMantissa` and the division remainder supplies the sticky bit,
which is the standard exact algorithm for correctly rounded division. -/
def divF (d t : ℕ) : ℕ × ℤ :=
  if d = 0 then (0, 0)
  else
    let s : ℤ := 55 + (bitlen t : ℤ) - (bitlen d : ℤ)
    let num := if 0 ≤ s then d * 2 ^ s.toNat else d
    let den := if 0 ≤ s then t else t * 2 ^ (-s).toNat
    let r := roundMantissa (num / den) (num % den != 0)
    (r.1, r.2 - s)

/-- The correctly rounded binary64 product of `(m, e)` with the exactly
representable constant 100: the integer product `m * 100` (at most 60
bits) is rounded back to 53 bits; no bits are lost before rounding, so
the sticky bit is false. -/
def mul100 (x : ℕ × ℤ) : ℕ × ℤ :=
  if x.1 = 0 then (0, 0)
  else
    let r := roundMantissa (x.1 * 100) false
    (r.1, x.2 + r.2)

/-- Round-half-even of `(m * 10) / 2^k`, the exact number of tenths of
the dyadic value `m * 2^(-k)` (`k ≥ 1`): the integer-arithmetic core of
CPython's `'.1f'` rendering of a double. -/
def rndTenthsDyadic (m k : ℕ) : ℕ :=
  if m * 10 % 2 ^ k < 2 ^ (k - 1) then m * 10 / 2 ^ k
  else if 2 ^ (k - 1) < m * 10 % 2 ^ k then m * 10 / 2 ^ k + 1
  else if (m * 10 / 2 ^ k) % 2 = 0 then m * 10 / 2 ^ k else m * 10 / 2 ^ k + 1

/-- CPython's `f'{x:.1f}'` for a nonnegative double `(m, e)`: the exact
value `m * 2^e` times 10 is rounded half-to-even to an integer number of
tenths, then printed as units, a dot, and the tenths digit. -/
def fmtF (x : ℕ × ℤ) : String :=
  let n := if 0 ≤ x.2 then x.1 * 10 * 2 ^ x.2.toNat else rndTenthsDyadic x.1 (-x.2).toNat
  toString (n / 10) ++ "." ++ toString (n % 10)

/-- The percentage text produced by
`coverage = (docs / funcs * 100) if funcs > 0 else 0` followed by
`f'{coverage:.1f}'`: the guarded branch prints `0.0`, otherwise the
double pipeline runs. -/
def pct1 (docs funcs : ℕ) : String :=
  if funcs = 0 then "0.0" else fmtF (mul100 (divF docs funcs))

/-- The per-file report line
`f'{os.path.basename(filepath)}: {docs}/{funcs} ({coverage:.1f}%)'`. -/
def fileLine (name : String) (docs funcs : ℕ) : String :=
  name ++ ": " ++ toString docs ++ "/" ++ toString funcs ++ " (" ++ pct1 docs funcs ++ "%)"

/-- The final report line `f'Overall: {td}/{tf} ({overall:.1f}%)'`
(without the leading newline of the source's f-string, accounted for in
`stdoutOf`). -/
def overallLine (td tf : ℕ) : String :=
  "Overall: " ++ toString td ++ "/" ++ toString tf ++ " (" ++ pct1 td tf ++ "%)"

/-- The walk loop over the qualifying files, carrying the accumulators
`total_funcs` and `total_documented`; returns the final accumulators and
the list of per-file lines printed, in order. -/
def mainLoop : List (String × List String) → ℕ → ℕ → ℕ × ℕ × List String
  | [], tf, td => (tf, td, [])
  | f :: rest, tf, td =>
    let r := analyze f.2
    let out := mainLoop rest (tf + r.1) (td + r.2)
    (out.1, out.2.1, fileLine f.1 r.2 r.1 :: out.2.2)

/-- The full standard-output text of one run, as a function of the
qualifying files in traversal order.  Each `print` appends a newline to
its argument; the final f-string itself starts with a newline. -/
def stdoutOf (files : List (String × List String)) : String :=
  let res := mainLoop files 0 0
  String.join (res.2.2.map fun l => l ++ "\n") ++ "\n" ++ overallLine res.2.1 res.1 ++ "\n"

/-! ## The specification's declaration pattern, stated declaratively

These definitions follow the spec's words ("an optional visibility
keyword from the set, followed by whitespace, then an optional static
keyword followed by whitespace, then either the keyword func plus an
identifier, or the token init and an opening parenthesis; trailing
content is ignored"), to be compared with the matcher embedded from the
source.  `InitCoreStrict` is the claim's reading of the init alternative
(parenthesis immediately after the token); `InitCoreLax` allows optional
whitespace, as the source's regex does. -/

/-- Every character of the list is whitespace. -/
def AllSpace (ws : List Char) : Prop := ∀ c ∈ ws, pySpace c = true

/-- The optional visibility-keyword segment: empty, or one keyword from
the fixed set followed by at least one whitespace character. -/
def VisOpt (v : List Char) : Prop :=
  v = [] ∨ ∃ kw ∈ (["public", "private", "internal", "fileprivate"] : List String),
    ∃ ws, ws ≠ [] ∧ AllSpace ws ∧ v = kw.toList ++ ws

/-- The optional static-keyword segment. -/
def StaticOpt (s : List Char) : Prop :=
  s = [] ∨ ∃ ws, ws ≠ [] ∧ AllSpace ws ∧ s = "static".toList ++ ws

/-- Core alternative (a): the keyword func, whitespace, then an
identifier (modelled, as in the source's regex, by its first word
character; trailing content is ignored). -/
def FuncCore (r : List Char) : Prop :=
  ∃ ws c rest, ws ≠ [] ∧ AllSpace ws ∧ pyWord c = true ∧
    r = "func".toList ++ (ws ++ c :: rest)

/-- Core alternative (b) as claim C1 states it: the token init followed
immediately by an opening parenthesis. -/
def InitCoreStrict (r : List Char) : Prop :=
  ∃ rest, r = "init".toList ++ '(' :: rest

/-- Core alternative (b) as the source's regex has it: the token init,
optional whitespace, then an opening parenthesis. -/
def InitCoreLax (r : List Char) : Prop :=
  ∃ ws rest, AllSpace ws ∧ r = "init".toList ++ (ws ++ '(' :: rest)

/-- Claim C1's declaration pattern: after stripping leading whitespace,
optional visibility, optional static, then one of the two cores, with
the parenthesis required immediately after init. -/
def SpecDeclStrict (line : String) : Prop :=
  ∃ v s r, VisOpt v ∧ StaticOpt s ∧ (FuncCore r ∨ InitCoreStrict r) ∧
    line.toList.dropWhile pySpace = v ++ (s ++ r)

/-- The declaration pattern with optional whitespace before the
parenthesis in the init alternative. -/
def SpecDeclLax (line : String) : Prop :=
  ∃ v s r, VisOpt v ∧ StaticOpt s ∧ (FuncCore r ∨ InitCoreLax r) ∧
    line.toList.dropWhile pySpace = v ++ (s ++ r)

/-! ## Matcher soundness: a successful match yields a decomposition -/

lemma dropLit_eq_some {kw cs r : List Char} (h : dropLit kw cs = some r) :
    cs = kw ++ r := by
  induction kw generalizing cs with
  | nil => simp_all [dropLit]
  | cons k ks ih =>
    cases cs with
    | nil => simp [dropLit] at h
    | cons c cs' =>
      by_cases hck : (c == k) = true
      · have h' : dropLit ks cs' = some r := by simpa [dropLit, hck] using h
        have hc : c = k := beq_iff_eq.mp hck
        subst hc
        simp [ih h']
      · simp [dropLit, hck] at h

lemma dropLit_self (kw r : List Char) : dropLit kw (kw ++ r) = some r := by
  induction kw with
  | nil => rfl
  | cons k ks ih => simp [dropLit, ih]

lemma wsPlus_eq_some {cs r : List Char} (h : wsPlus cs = some r) :
    ∃ ws, ws ≠ [] ∧ AllSpace ws ∧ cs = ws ++ r := by
  cases cs with
  | nil => simp [wsPlus] at h
  | cons c t =>
    by_cases hsp : pySpace c = true
    · have h' : t.dropWhile pySpace = r := by simpa [wsPlus, hsp] using h
      refine ⟨c :: t.takeWhile pySpace, by simp, ?_, ?_⟩
      · intro x hx
        rcases List.mem_cons.mp hx with rfl | hx
        · exact hsp
        · exact List.mem_takeWhile_imp hx
      · rw [← h', List.cons_append, List.takeWhile_append_dropWhile]
    · simp [wsPlus, hsp] at h

lemma kwWS_eq_some {kw cs r : List Char} (h : kwWS kw cs = some r) :
    ∃ ws, ws ≠ [] ∧ AllSpace ws ∧ cs = kw ++ (ws ++ r) := by
  unfold kwWS at h
  rcases Option.bind_eq_some.mp h with ⟨m, hm, hw⟩
  obtain ⟨ws, h1, h2, h3⟩ := wsPlus_eq_some hw
  exact ⟨ws, h1, h2, by rw [dropLit_eq_some hm, h3]⟩

lemma tryVis_decomp (cs : List Char) : ∃ v, VisOpt v ∧ cs = v ++ tryVis cs := by
  unfold tryVis
  cases hp : kwWS "public".toList cs with
  | some r =>
    obtain ⟨ws, h1, h2, h3⟩ := kwWS_eq_some hp
    exact ⟨"public".toList ++ ws, Or.inr ⟨"public", by simp, ws, h1, h2, rfl⟩,
      by rw [h3, List.append_assoc]⟩
  | none =>
    cases hpr : kwWS "private".toList cs with
    | some r =>
      obtain ⟨ws, h1, h2, h3⟩ := kwWS_eq_some hpr
      exact ⟨"private".toList ++ ws, Or.inr ⟨"private", by simp, ws, h1, h2, rfl⟩,
        by rw [h3, List.append_assoc]⟩
    | none =>
      cases hin : kwWS "internal".toList cs with
      | some r =>
        obtain ⟨ws, h1, h2, h3⟩ := kwWS_eq_some hin
        exact ⟨"internal".toList ++ ws, Or.inr ⟨"internal", by simp, ws, h1, h2, rfl⟩,
          by rw [h3, List.append_assoc]⟩
      | none =>
        cases hfp : kwWS "fileprivate".toList cs with
        | some r =>
          obtain ⟨ws, h1, h2, h3⟩ := kwWS_eq_some hfp
          exact ⟨"fileprivate".toList ++ ws,
            Or.inr ⟨"fileprivate", by simp, ws, h1, h2, rfl⟩,
            by rw [h3, List.append_assoc]⟩
        | none => exact ⟨[], Or.inl rfl, rfl⟩

lemma tryStatic_decomp (cs : List Char) : ∃ s, StaticOpt s ∧ cs = s ++ tryStatic cs := by
  unfold tryStatic
  cases hs : kwWS "static".toList cs with
  | some r =>
    obtain ⟨ws, h1, h2, h3⟩ := kwWS_eq_some hs
    exact ⟨"static".toList ++ ws, Or.inr ⟨ws, h1, h2, rfl⟩, by rw [h3, List.append_assoc]⟩
  | none => exact ⟨[], Or.inl rfl, rfl⟩

lemma funcBranch_eq_true {r : List Char} (h : funcBranch r = true) : FuncCore r := by
  unfold funcBranch at h
  cases hk : kwWS "func".toList r with
  | none => rw [hk] at h; exact absurd h (by simp)
  | some m =>
    rw [hk] at h
    cases m with
    | nil => exact absurd h (by simp)
    | cons c t =>
      obtain ⟨ws, h1, h2, h3⟩ := kwWS_eq_some hk
      exact ⟨ws, c, t, h1, h2, h, h3⟩

lemma initBranch_eq_true {r : List Char} (h : initBranch r = true) : InitCoreLax r := by
  unfold initBranch at h
  split at h
  · rename_i m heq
    split at h
    · rename_i t heq2
      refine ⟨m.takeWhile pySpace, t, ?_, ?_⟩
      · intro x hx; exact List.mem_takeWhile_imp hx
      · rw [dropLit_eq_some heq]
        congr 1
        rw [← heq2]
        exact (List.takeWhile_append_dropWhile _ _).symm
    · simp at h
  · simp at h

lemma declCore_sound {cs : List Char} (h : declCore cs = true) :
    ∃ v s r, VisOpt v ∧ StaticOpt s ∧ (FuncCore r ∨ InitCoreLax r) ∧ cs = v ++ (s ++ r) := by
  obtain ⟨v, hv, hcs⟩ := tryVis_decomp cs
  obtain ⟨s, hs, hcs2⟩ := tryStatic_decomp (tryVis cs)
  refine ⟨v, s, tryStatic (tryVis cs), hv, hs, ?_, by rw [← hcs2]; exact hcs⟩
  have h' : (funcBranch (tryStatic (tryVis cs)) || initBranch (tryStatic (tryVis cs))) = true := h
  rw [Bool.or_eq_true] at h'
  rcases h' with hb | hb
  · exact Or.inl (funcBranch_eq_true hb)
  · exact Or.inr (initBranch_eq_true hb)

/-! ## Matcher completeness: every decomposition is accepted -/

lemma pyWord_not_space {c : Char} (h : pyWord c = true) : pySpace c = false := by
  cases hps : pySpace c
  · rfl
  · exfalso
    have hc : c = ' ' ∨ c = '\t' ∨ c = '\n' ∨ c = '\r' ∨ c = '\x0b' ∨ c = '\x0c' := by
      simpa only [pySpace, Bool.or_eq_true, beq_iff_eq, or_assoc] using hps
    rcases hc with rfl | rfl | rfl | rfl | rfl | rfl <;> exact absurd h (by decide)

lemma dropWhile_allSpace {ws : List Char} (x : Char) (t : List Char)
    (h2 : AllSpace ws) (h3 : pySpace x = false) :
    (ws ++ x :: t).dropWhile pySpace = x :: t := by
  induction ws with
  | nil => simp [List.dropWhile_cons, h3]
  | cons w ws' ih =>
    have hw : pySpace w = true := h2 w (by simp)
    simp only [List.cons_append, List.dropWhile_cons, hw, if_true]
    exact ih fun c hc => h2 c (by simp [hc])

lemma kwWS_append (kw ws : List Char) (x : Char) (t : List Char)
    (h1 : ws ≠ []) (h2 : AllSpace ws) (h3 : pySpace x = false) :
    kwWS kw (kw ++ (ws ++ x :: t)) = some (x :: t) := by
  unfold kwWS
  rw [dropLit_self, Option.some_bind]
  cases ws with
  | nil => exact absurd rfl h1
  | cons w ws' =>
    have hw : pySpace w = true := h2 w (by simp)
    simp only [List.cons_append, wsPlus, hw, if_true]
    rw [dropWhile_allSpace x t (fun c hc => h2 c (by simp [hc])) h3]

/-- Helper shape: a list with a known non-whitespace head character. -/
def HeadNotSpace (X : List Char) : Prop :=
  ∃ x t, X = x :: t ∧ pySpace x = false

lemma tryVis_consume (kw : String)
    (hkw : kw ∈ (["public", "private", "internal", "fileprivate"] : List String))
    (ws X : List Char) (h1 : ws ≠ []) (h2 : AllSpace ws) (hX : HeadNotSpace X) :
    tryVis (kw.toList ++ (ws ++ X)) = X := by
  obtain ⟨x, t, rfl, hx⟩ := hX
  simp only [List.mem_cons, List.not_mem_nil, or_false] at hkw
  rcases hkw with rfl | rfl | rfl | rfl
  · have hm := kwWS_append "public".toList ws x t h1 h2 hx
    unfold tryVis
    simp only [hm]
  · have hp : kwWS "public".toList ("private".toList ++ (ws ++ x :: t)) = none := rfl
    have hm := kwWS_append "private".toList ws x t h1 h2 hx
    unfold tryVis
    simp only [hp, hm]
  · have hp : kwWS "public".toList ("internal".toList ++ (ws ++ x :: t)) = none := rfl
    have hpr : kwWS "private".toList ("internal".toList ++ (ws ++ x :: t)) = none := rfl
    have hm := kwWS_append "internal".toList ws x t h1 h2 hx
    unfold tryVis
    simp only [hp, hpr, hm]
  · have hp : kwWS "public".toList ("fileprivate".toList ++ (ws ++ x :: t)) = none := rfl
    have hpr : kwWS "private".toList ("fileprivate".toList ++ (ws ++ x :: t)) = none := rfl
    have hin : kwWS "internal".toList ("fileprivate".toList ++ (ws ++ x :: t)) = none := rfl
    have hm := kwWS_append "fileprivate".toList ws x t h1 h2 hx
    unfold tryVis
    simp only [hp, hpr, hin, hm]

lemma tryVis_skip_static (X : List Char) :
    tryVis ("static".toList ++ X) = "static".toList ++ X := rfl

lemma tryVis_skip_func (X : List Char) :
    tryVis ("func".toList ++ X) = "func".toList ++ X := rfl

lemma tryVis_skip_init (X : List Char) :
    tryVis ("init".toList ++ X) = "init".toList ++ X := rfl

lemma tryStatic_skip_func (X : List Char) :
    tryStatic ("func".toList ++ X) = "func".toList ++ X := rfl

lemma tryStatic_skip_init (X : List Char) :
    tryStatic ("init".toList ++ X) = "init".toList ++ X := rfl

lemma headNotSpace_of_core {r : List Char} (hr : FuncCore r ∨ InitCoreLax r) :
    HeadNotSpace r := by
  rcases hr with ⟨ws, c, rest, _, _, _, rfl⟩ | ⟨ws, rest, _, rfl⟩
  · exact ⟨'f', 'u' :: 'n' :: 'c' :: (ws ++ c :: rest), rfl, by decide⟩
  · exact ⟨'i', 'n' :: 'i' :: 't' :: (ws ++ '(' :: rest), rfl, by decide⟩

lemma tryStatic_consume (ws' r : List Char) (h1 : ws' ≠ []) (h2 : AllSpace ws')
    (hr : FuncCore r ∨ InitCoreLax r) :
    tryStatic ("static".toList ++ (ws' ++ r)) = r := by
  obtain ⟨x, t, rfl, hx⟩ := headNotSpace_of_core hr
  have hm := kwWS_append "static".toList ws' x t h1 h2 hx
  unfold tryStatic
  simp only [hm]

lemma funcBranch_complete (ws : List Char) (c : Char) (rest : List Char)
    (h1 : ws ≠ []) (h2 : AllSpace ws) (hw : pyWord c = true) :
    funcBranch ("func".toList ++ (ws ++ c :: rest)) = true := by
  have hm := kwWS_append "func".toList ws c rest h1 h2 (pyWord_not_space hw)
  unfold funcBranch
  simp only [hm]
  exact hw

lemma initBranch_complete (ws rest : List Char) (h2 : AllSpace ws) :
    initBranch ("init".toList ++ (ws ++ '(' :: rest)) = true := by
  have hd : dropLit "init".toList ("init".toList ++ (ws ++ '(' :: rest))
      = some (ws ++ '(' :: rest) := dropLit_self _ _
  have hw : (ws ++ '(' :: rest).dropWhile pySpace = '(' :: rest :=
    dropWhile_allSpace '(' rest h2 (by decide)
  unfold initBranch
  simp only [hd, hw]

lemma branch_complete {r : List Char} (hr : FuncCore r ∨ InitCoreLax r) :
    (funcBranch r || initBranch r) = true := by
  rcases hr with ⟨ws, c, rest, h1, h2, hw, rfl⟩ | ⟨ws, rest, h2, rfl⟩
  · rw [funcBranch_complete ws c rest h1 h2 hw, Bool.true_or]
  · rw [initBranch_complete ws rest h2, Bool.or_true]

lemma tryVis_skip_core {r : List Char} (hr : FuncCore r ∨ InitCoreLax r) :
    tryVis r = r := by
  rcases hr with ⟨ws, c, rest, _, _, _, rfl⟩ | ⟨ws, rest, _, rfl⟩
  · exact tryVis_skip_func _
  · exact tryVis_skip_init _

lemma tryStatic_skip_core {r : List Char} (hr : FuncCore r ∨ InitCoreLax r) :
    tryStatic r = r := by
  rcases hr with ⟨ws, c, rest, _, _, _, rfl⟩ | ⟨ws, rest, _, rfl⟩
  · exact tryStatic_skip_func _
  · exact tryStatic_skip_init _

lemma declCore_complete (v s r : List Char) (hv : VisOpt v) (hs : StaticOpt s)
    (hr : FuncCore r ∨ InitCoreLax r) :
    declCore (v ++ (s ++ r)) = true := by
  have hstat : tryStatic (s ++ r) = r := by
    rcases hs with rfl | ⟨ws', h1', h2', rfl⟩
    · rw [List.nil_append]; exact tryStatic_skip_core hr
    · rw [List.append_assoc]; exact tryStatic_consume ws' r h1' h2' hr
  have hvis : tryVis (v ++ (s ++ r)) = s ++ r := by
    rcases hv with rfl | ⟨kw, hkw, ws, h1, h2, rfl⟩
    · rw [List.nil_append]
      rcases hs with rfl | ⟨ws', h1', h2', rfl⟩
      · rw [List.nil_append]; exact tryVis_skip_core hr
      · rw [List.append_assoc]; exact tryVis_skip_static _
    · rw [List.append_assoc]
      refine tryVis_consume kw hkw ws (s ++ r) h1 h2 ?_
      rcases hs with rfl | ⟨ws', h1', h2', rfl⟩
      · rw [List.nil_append]; exact headNotSpace_of_core hr
      · exact ⟨'s', 't' :: 'a' :: 't' :: 'i' :: 'c' :: (ws' ++ r), rfl, by decide⟩
  show (funcBranch (tryStatic (tryVis (v ++ (s ++ r))))
      || initBranch (tryStatic (tryVis (v ++ (s ++ r))))) = true
  rw [hvis, hstat]
  exact branch_complete hr

/-- The matcher embedded from the source accepts exactly the lines of the
declarative pattern with optional whitespace before the init parenthesis. -/
lemma isDecl_iff_specLax (line : String) : isDecl line = true ↔ SpecDeclLax line := by
  constructor
  · intro h
    obtain ⟨v, s, r, hv, hs, hr, he⟩ := declCore_sound h
    exact ⟨v, s, r, hv, hs, hr, he⟩
  · rintro ⟨v, s, r, hv, hs, hr, he⟩
    show declCore (line.toList.dropWhile pySpace) = true
    rw [he]
    exact declCore_complete v s r hv hs hr

/-- Claim C9's line shape: after leading whitespace, optional visibility
and static keywords, then the init alternative with any amount of
whitespace before the parenthesis. -/
def SpecInitForm (line : String) : Prop :=
  ∃ v s r, VisOpt v ∧ StaticOpt s ∧ InitCoreLax r ∧
    line.toList.dropWhile pySpace = v ++ (s ++ r)

lemma not_specStrict_init_space : ¬ SpecDeclStrict "init (" := by
  rintro ⟨v, s, r, hv, hs, hcore, he⟩
  have he' : ('i' :: 'n' :: 'i' :: 't' :: ' ' :: '(' :: ([] : List Char)) = v ++ (s ++ r) := he
  rcases hv with rfl | ⟨kw, hkw, ws, h1, h2, rfl⟩
  · rw [List.nil_append] at he'
    rcases hs with rfl | ⟨ws', h1', h2', rfl⟩
    · rw [List.nil_append] at he'
      rcases hcore with ⟨wsf, c, rest, hf1, hf2, hfw, rfl⟩ | ⟨rest, rfl⟩
      · injection he' with hx _
        exact absurd hx (by decide)
      · injection he' with _ he2
        injection he2 with _ he3
        injection he3 with _ he4
        injection he4 with _ he5
        injection he5 with hx _
        exact absurd hx (by decide)
    · rw [List.append_assoc] at he'
      injection he' with hx _
      exact absurd hx (by decide)
  · rw [List.append_assoc] at he'
    simp only [List.mem_cons, List.not_mem_nil, or_false] at hkw
    rcases hkw with rfl | rfl | rfl | rfl
    · injection he' with hx _
      exact absurd hx (by decide)
    · injection he' with hx _
      exact absurd hx (by decide)
    · injection he' with _ he2
      injection he2 with _ he3
      injection he3 with hx _
      exact absurd hx (by decide)
    · injection he' with hx _
      exact absurd hx (by decide)

/-! ## Properties of `analyze` -/

lemma declIndicesFrom_append (L S : List String) (n : ℕ) :
    declIndicesFrom n (L ++ S) =
      declIndicesFrom n L ++ declIndicesFrom (n + L.length) S := by
  induction L generalizing n with
  | nil => simp [declIndicesFrom]
  | cons l rest ih =>
    simp only [List.cons_append, declIndicesFrom, List.length_cons]
    have harith : n + 1 + rest.length = n + (rest.length + 1) := by omega
    by_cases h : isDecl l = true
    · simp [h, ih, harith]
    · simp [h, ih, harith]

lemma mem_declIndicesFrom {lines : List String} {n i : ℕ}
    (h : i ∈ declIndicesFrom n lines) : n ≤ i ∧ i < n + lines.length := by
  induction lines generalizing n with
  | nil => simp [declIndicesFrom] at h
  | cons l rest ih =>
    simp only [declIndicesFrom] at h
    by_cases hd : isDecl l = true
    · rw [if_pos hd] at h
      rcases List.mem_cons.mp h with rfl | h'
      · simp
      · have := ih h'
        simp only [List.length_cons]
        omega
    · rw [if_neg hd] at h
      have := ih h
      simp only [List.length_cons]
      omega

lemma window_append {L S : List String} {i : ℕ} (h : i ≤ L.length) :
    window (L ++ S) i = window L i := by
  unfold window
  rw [List.drop_append_of_le_length (by omega),
    List.take_append_of_le_length (by rw [List.length_drop]; omega)]

lemma isDocumented_append {L S : List String} {i : ℕ} (h : i ≤ L.length) :
    isDocumented (L ++ S) i = isDocumented L i := by
  unfold isDocumented
  rw [window_append h]

lemma isDocumented_zero (lines : List String) : isDocumented lines 0 = false := rfl

/-- Membership characterization of the lookback window: its elements are
exactly the lines at indices `max(0, i-10) ≤ j < i` of the file. -/
lemma isDocumented_iff (lines : List String) (i : ℕ) :
    isDocumented lines i = true ↔
      ∃ j, i - 10 ≤ j ∧ j < i ∧ j < lines.length ∧ hasDocMarker (lines.getD j "") = true := by
  unfold isDocumented window
  rw [List.any_eq_true]
  constructor
  · rintro ⟨l, hl, hp⟩
    obtain ⟨k, hk, hlk⟩ := List.mem_iff_getElem.mp hl
    have hk1 := hk
    rw [List.length_take, List.length_drop] at hk1
    have hkd : k < (lines.drop (i - 10)).length := by rw [List.length_drop]; omega
    have hb : (i - 10) + k < lines.length := by omega
    have : (List.take (i - (i - 10)) (lines.drop (i - 10)))[k] = lines[(i - 10) + k] := by
      rw [List.getElem_take, List.getElem_drop]
    refine ⟨(i - 10) + k, by omega, by omega, by omega, ?_⟩
    rw [List.getD_eq_getElem lines "" (by omega), ← this, hlk]
    exact hp
  · rintro ⟨j, hj1, hj2, hj3, hp⟩
    have hk : j - (i - 10) < (List.take (i - (i - 10)) (lines.drop (i - 10))).length := by
      rw [List.length_take, List.length_drop]; omega
    refine ⟨(List.take (i - (i - 10)) (lines.drop (i - 10)))[j - (i - 10)], List.getElem_mem hk, ?_⟩
    have hb : (i - 10) + (j - (i - 10)) < lines.length := by omega
    have : (List.take (i - (i - 10)) (lines.drop (i - 10)))[j - (i - 10)]
        = lines[(i - 10) + (j - (i - 10))] := by
      rw [List.getElem_take, List.getElem_drop]
    rw [this]
    have hji : (i - 10) + (j - (i - 10)) = j := by omega
    rw [List.getD_eq_getElem lines "" hj3] at hp
    simp only [hji]
    exact hp

/-! ## Properties of the main loop -/

lemma mainLoop_eq (files : List (String × List String)) (tf td : ℕ) :
    mainLoop files tf td =
      (tf + (files.map fun f => (analyze f.2).1).sum,
       td + (files.map fun f => (analyze f.2).2).sum,
       files.map fun f => fileLine f.1 (analyze f.2).2 (analyze f.2).1) := by
  induction files generalizing tf td with
  | nil => simp [mainLoop]
  | cons f rest ih =>
    simp [mainLoop, ih, Nat.add_assoc]

/-! ## The specification's percentage formatting over exact rationals

The claim's phrase "documented/total*100 formatted to one decimal place"
is formalized by `fmtOneDec` over the exact rational value, rounding
half to even (the tie rule CPython's rendering itself uses on the exact
value of a double).  `tenths` is an integer-arithmetic evaluator for
this exact formatting at quotient arguments, used to compute it on
concrete inputs via `tenths_eq`; it is spec-side machinery, not a model
of the program, whose percentages pass through binary64 (`pct1`). -/

/-- One-decimal rounding of a nonnegative rational, expressed in tenths:
the integer nearest to `q * 10`, ties to even. -/
def roundTenths (q : ℚ) : ℕ :=
  if q * 10 - ⌊q * 10⌋₊ < 1/2 then ⌊q * 10⌋₊
  else if 1/2 < q * 10 - ⌊q * 10⌋₊ then ⌊q * 10⌋₊ + 1
  else if ⌊q * 10⌋₊ % 2 = 0 then ⌊q * 10⌋₊ else ⌊q * 10⌋₊ + 1

/-- A nonnegative rational formatted to one decimal place, as the spec
words it for percentages. -/
def fmtOneDec (q : ℚ) : String :=
  toString (roundTenths q / 10) ++ "." ++ toString (roundTenths q % 10)

/-- The exact value of a modelled double `(m, e)`, namely `m * 2^e`. -/
def dyadicVal (x : ℕ × ℤ) : ℚ :=
  (x.1 : ℚ) * 2 ^ x.2

/-- Integer evaluator for `roundTenths` at exact quotients `d/t*100`:
round-half-even of `1000*d/t`. -/
def tenths (d t : ℕ) : ℕ :=
  if 2 * (1000 * d % t) < t then 1000 * d / t
  else if t < 2 * (1000 * d % t) then 1000 * d / t + 1
  else if (1000 * d / t) % 2 = 0 then 1000 * d / t else 1000 * d / t + 1

lemma cast_div_lt_half {x y : ℕ} (hy : 0 < y) : ((x:ℚ))/y < 1/2 ↔ 2*x < y := by
  rw [div_lt_div_iff₀ (by exact_mod_cast hy) (by norm_num : (0:ℚ) < 2), one_mul, mul_comm]
  norm_cast

lemma half_lt_cast_div {x y : ℕ} (hy : 0 < y) : (1:ℚ)/2 < (x:ℚ)/y ↔ y < 2*x := by
  rw [div_lt_div_iff₀ (by norm_num : (0:ℚ) < 2) (by exact_mod_cast hy), one_mul, mul_comm]
  norm_cast

lemma cast_div_sub_div_floor (a t : ℕ) (ht : 0 < t) :
    ((a : ℚ) / t) - ((a / t : ℕ) : ℚ) = ((a % t : ℕ) : ℚ) / t := by
  have ht' : (t:ℚ) ≠ 0 := by exact_mod_cast ht.ne'
  have hc : (t * (a / t) + a % t : ℕ) = a := Nat.div_add_mod a t
  have hcast : ((a:ℚ)) = (t:ℚ) * ((a/t : ℕ):ℚ) + ((a % t : ℕ):ℚ) := by exact_mod_cast hc.symm
  field_simp
  linarith

lemma floor_cast_div (a t : ℕ) : ⌊((a:ℚ))/t⌋₊ = a / t := by
  rw [Nat.floor_div_nat, Nat.floor_natCast]

lemma tenths_eq (d t : ℕ) (ht : 0 < t) :
    tenths d t = roundTenths ((d:ℚ)/t*100) := by
  have hq10 : (d : ℚ) / t * 100 * 10 = ((1000 * d : ℕ) : ℚ) / t := by push_cast; ring
  unfold roundTenths tenths
  rw [hq10, floor_cast_div, cast_div_sub_div_floor (1000 * d) t ht]
  simp only [cast_div_lt_half ht, half_lt_cast_div ht]

lemma fmtOneDec_pct (d t : ℕ) (ht : 0 < t) :
    fmtOneDec ((d : ℚ) / t * 100)
      = toString (tenths d t / 10) ++ "." ++ toString (tenths d t % 10) := by
  unfold fmtOneDec
  rw [← tenths_eq d t ht]

lemma rndTenthsDyadic_eq (m k : ℕ) (hk : 1 ≤ k) :
    rndTenthsDyadic m k = roundTenths ((m : ℚ) / ((2 ^ k : ℕ) : ℚ)) := by
  have hpos : 0 < 2 ^ k := Nat.pos_pow_of_pos k (by omega)
  have hv : (m : ℚ) / ((2 ^ k : ℕ) : ℚ) * 10 = ((m * 10 : ℕ) : ℚ) / ((2 ^ k : ℕ) : ℚ) := by
    push_cast; ring
  unfold roundTenths rndTenthsDyadic
  rw [hv, floor_cast_div, cast_div_sub_div_floor (m * 10) (2 ^ k) hpos]
  simp only [cast_div_lt_half hpos, half_lt_cast_div hpos]
  have h2k : (2 : ℕ) ^ k = 2 * 2 ^ (k - 1) := by
    cases k with
    | zero => exact absurd hk (by decide)
    | succ n => rw [Nat.succ_sub_one, pow_succ, Nat.mul_comm]
  have hc1 : (2 * (m * 10 % 2 ^ k) < 2 ^ k) ↔ (m * 10 % 2 ^ k < 2 ^ (k - 1)) := by omega
  have hc2 : (2 ^ k < 2 * (m * 10 % 2 ^ k)) ↔ (2 ^ (k - 1) < m * 10 % 2 ^ k) := by omega
  simp only [hc1, hc2]

/-- The rendering step of the embedded pipeline coincides with the
spec's exact one-decimal formatting applied to the double's exact
value. -/
lemma fmtF_eq (x : ℕ × ℤ) : fmtF x = fmtOneDec (dyadicVal x) := by
  obtain ⟨m, e⟩ := x
  rcases le_or_lt 0 e with he | he
  · have h2 : (2 : ℚ) ^ e = ((2 ^ e.toNat : ℕ) : ℚ) := by
      rw [← Int.toNat_of_nonneg he, zpow_natCast]
      push_cast
      rw [Int.toNat_of_nonneg he]
    have hv : dyadicVal (m, e) * 10 = ((m * 10 * 2 ^ e.toNat : ℕ) : ℚ) := by
      unfold dyadicVal
      rw [h2]
      push_cast
      ring
    unfold fmtF fmtOneDec roundTenths
    rw [if_pos he, hv, Nat.floor_natCast, sub_self]
    rw [if_pos (by norm_num : (0:ℚ) < 1/2)]
  · have hk : 1 ≤ (-e).toNat := by omega
    have h2 : ∀ k : ℕ, e = -(k : ℤ) → dyadicVal (m, e) = (m : ℚ) / ((2 ^ k : ℕ) : ℚ) := by
      intro k hek
      unfold dyadicVal
      subst hek
      rw [zpow_neg, zpow_natCast, div_eq_mul_inv]
      push_cast
      rfl
    unfold fmtF
    rw [if_neg (by omega), rndTenthsDyadic_eq m (-e).toNat hk, h2 (-e).toNat (by omega)]
    rfl

/-! ## The claims -/

/-- Claim C1, counterexample: the line consisting of the token init, a
space, then an opening parenthesis is classified as a declaration by the
analyzer, yet it does not match the claimed pattern, whose init
alternative requires the parenthesis immediately after the token. -/
theorem C1_counterexample : isDecl "init (" = true ∧ ¬ SpecDeclStrict "init (" :=
  ⟨by decide, not_specStrict_init_space⟩

/-- Claim C1, amended: a line is classified as a declaration exactly when,
after stripping leading whitespace, it matches: an optional visibility
keyword from the set (followed by whitespace), then an optional static
keyword (followed by whitespace), then either the keyword func plus an
identifier, or the token init followed by optional whitespace and an
opening parenthesis; trailing content is ignored.  In particular the line
consisting of public, static, func bar and an opening brace counts. -/
theorem C1_theorem :
    (∀ line : String, isDecl line = true ↔ SpecDeclLax line)
      ∧ isDecl "public static func bar() \x7b" = true :=
  ⟨isDecl_iff_specLax, by decide⟩

/-- Claim C2: a declaration at 0-based index i is counted as documented
exactly when some line at an index j with max(0, i-10) ≤ j < i contains
the substring of three slashes; on the boundary file (marker on line 0,
ten blank lines, declaration at index 11) the analyzer returns (1, 0). -/
theorem C2_theorem :
    (∀ (lines : List String) (i : ℕ), isDocumented lines i = true ↔
        ∃ j, i - 10 ≤ j ∧ j < i ∧ j < lines.length ∧ hasDocMarker (lines.getD j "") = true)
      ∧ analyze ("/// doc" :: (List.replicate 10 "" ++ ["func foo() \x7b\x7d"])) = (1, 0) :=
  ⟨isDocumented_iff, by decide⟩

/-- Claim C3: every analyzer result satisfies 0 ≤ documented ≤ total, and
the aggregator's running totals satisfy documented ≤ total after every
per-file accumulation (every processed prefix of the file list). -/
theorem C3_theorem :
    (∀ lines : List String,
        0 ≤ (analyze lines).2 ∧ (analyze lines).2 ≤ (analyze lines).1)
      ∧ ∀ files : List (String × List String),
        (mainLoop files 0 0).2.1 ≤ (mainLoop files 0 0).1 := by
  constructor
  · intro lines
    exact ⟨Nat.zero_le _, List.countP_le_length _⟩
  · intro files
    rw [mainLoop_eq]
    simp only [Nat.zero_add]
    exact List.sum_le_sum fun f _ => List.countP_le_length _

/-- Claim C4, counterexample: at documented 1 of total 2000 the exact
quotient is 0.05 percent, an exact tie, and double rounding decides it:
the program computes `fl(fl(1/2000)*100)`, whose exact value is
`7205759403792794 * 2^(-57)`, slightly above 0.05, and prints `0.1`,
while 0.05 formatted to one decimal place is `0.0`. -/
theorem C4_counterexample :
    pct1 1 2000 = "0.1" ∧ fmtOneDec ((1 : ℚ) / 2000 * 100) = "0.0"
      ∧ pct1 1 2000 ≠ fmtOneDec ((1 : ℚ) / 2000 * 100) := by
  have hexact : fmtOneDec ((1 : ℚ) / 2000 * 100) = "0.0" := by
    rw [show (1 : ℚ) / 2000 * 100 = ((1 : ℕ) : ℚ) / ((2000 : ℕ) : ℚ) * 100 by norm_num]
    rw [fmtOneDec_pct 1 2000 (by norm_num)]
    decide
  refine ⟨by decide, hexact, ?_⟩
  rw [hexact]
  decide

/-- Claim C4, amended: every percentage the program prints is the exact
value of the IEEE-754 double-precision evaluation of
documented/total*100 formatted to one decimal place when total is
positive, and the text 0.0 when total is zero, so the division is never
evaluated at zero; off exact ties of the quotient this agrees with
exact-quotient formatting — in particular 0/0 prints 0.0 and 1/3 prints
33.3, the latter equal to the exact quotient formatted to one decimal
place — while at the exact tie 1/2000 the double decides and 0.1 is
printed. -/
theorem C4_theorem :
    (∀ d t : ℕ, t = 0 → pct1 d t = "0.0")
      ∧ (∀ d t : ℕ, 0 < t → pct1 d t = fmtOneDec (dyadicVal (mul100 (divF d t))))
      ∧ fmtOneDec ((1 : ℚ) / 3 * 100) = "33.3"
      ∧ pct1 0 0 = "0.0" ∧ pct1 1 3 = "33.3" ∧ pct1 1 2000 = "0.1" := by
  refine ⟨?_, ?_, ?_, by decide, by decide, by decide⟩
  · intro d t ht
    subst ht
    rfl
  · intro d t ht
    unfold pct1
    rw [if_neg (Nat.pos_iff_ne_zero.mp ht), fmtF_eq]
  · rw [show (1 : ℚ) / 3 * 100 = ((1 : ℕ) : ℚ) / ((3 : ℕ) : ℚ) * 100 by norm_num]
    rw [fmtOneDec_pct 1 3 (by norm_num)]
    decide

/-- Witness for claim C4: the zero-total guard at a nonzero documented
count, and the formatted-double characterization at documented 1 of
total 3. -/
theorem C4_witness :
    pct1 7 0 = "0.0" ∧ 0 < 3
      ∧ pct1 1 3 = fmtOneDec (dyadicVal (mul100 (divF 1 3))) :=
  ⟨C4_theorem.1 7 0 rfl, by decide, C4_theorem.2.1 1 3 (by decide)⟩

/-- Claim C5: the run's full output is one line per qualifying file of
the form name, colon, documented/total, percentage, followed by a blank
separator line and an Overall line computed from the sums of the per-file
counts. -/
theorem C5_theorem :
    ∀ files : List (String × List String),
      stdoutOf files =
        String.join (files.map fun f => fileLine f.1 (analyze f.2).2 (analyze f.2).1 ++ "\n")
          ++ "\n"
          ++ overallLine (files.map fun f => (analyze f.2).2).sum
              (files.map fun f => (analyze f.2).1).sum
          ++ "\n" := by
  intro files
  show String.join (((mainLoop files 0 0).2.2).map fun l => l ++ "\n")
      ++ "\n" ++ overallLine (mainLoop files 0 0).2.1 (mainLoop files 0 0).1 ++ "\n" = _
  rw [mainLoop_eq]
  simp only [Nat.zero_add, List.map_map]
  rfl

/-- Claim C6, counterexample: with zero qualifying files the entire
standard output is not the bare Overall line; the blank separator line is
printed first and the final print appends a newline. -/
theorem C6_counterexample : stdoutOf [] ≠ "Overall: 0/0 (0.0%)" := by decide

/-- Claim C6, amended: for a directory tree with zero matching files the
entire standard output is exactly a blank line followed by the Overall
0/0 line and a trailing newline. -/
theorem C6_theorem : stdoutOf [] = "\nOverall: 0/0 (0.0%)\n" := by decide

/-- Claim C7: a declaration detected at line index 0 is never counted as
documented: its lookback window is empty, and the documented count equals
the count taken over the nonzero declaration indices only. -/
theorem C7_theorem :
    ∀ lines : List String,
      isDocumented lines 0 = false
        ∧ (analyze lines).2 =
            ((declIndices lines).filter fun i => i != 0).countP
              fun i => isDocumented lines i := by
  intro lines
  refine ⟨isDocumented_zero lines, ?_⟩
  rw [List.countP_filter]
  refine List.countP_congr fun x _ => ?_
  by_cases hx : x = 0
  · subst hx
    simp [isDocumented_zero]
  · simp [hx]

/-- Claim C8: the analyzer result printed for a file is a function of
that file's text alone, independent of the files scanned before or after
it, and the whole output is a deterministic function of the scanned
tree, so two runs over equal inputs produce byte-identical output. -/
theorem C8_theorem :
    (∀ (pre post : List (String × List String)) (f : String × List String),
        ((mainLoop (pre ++ f :: post) 0 0).2.2).getD pre.length ""
          = fileLine f.1 (analyze f.2).2 (analyze f.2).1)
      ∧ ∀ files₁ files₂ : List (String × List String),
          files₁ = files₂ → stdoutOf files₁ = stdoutOf files₂ := by
  constructor
  · intro pre post f
    rw [mainLoop_eq]
    simp only [List.map_append, List.map_cons]
    rw [List.getD_append_right _ _ _ _ (by rw [List.length_map])]
    rw [List.length_map, Nat.sub_self, List.getD_cons_zero]
  · intro files₁ files₂ h
    rw [h]

/-- Claim C9: every line that consists, after leading whitespace and the
optional visibility and static keywords, of the token init followed by
any amount of whitespace and an opening parenthesis is counted as a
declaration. -/
theorem C9_theorem : ∀ line : String, SpecInitForm line → isDecl line = true := by
  rintro line ⟨v, s, r, hv, hs, hr, he⟩
  show declCore (line.toList.dropWhile pySpace) = true
  rw [he]
  exact declCore_complete v s r hv hs (Or.inr hr)

/-- Witness for claim C9 at the concrete line of the token init, one
space, and an opening parenthesis. -/
theorem C9_witness : SpecInitForm "init (" ∧ isDecl "init (" = true := by
  have hform : SpecInitForm "init (" := by
    refine ⟨[], [], "init".toList ++ ([' '] ++ '(' :: []), Or.inl rfl, Or.inl rfl, ?_, rfl⟩
    refine ⟨[' '], [], ?_, rfl⟩
    intro c hc
    rcases List.mem_singleton.mp hc with rfl
    rfl
  exact ⟨hform, C9_theorem "init (" hform⟩

/-- Claim C10: appending lines to the end of a file never decreases the
total or the documented count: existing declarations keep their indices,
their lookback windows are unchanged, and new lines can only add. -/
theorem C10_theorem :
    ∀ L S : List String,
      (analyze L).1 ≤ (analyze (L ++ S)).1 ∧ (analyze L).2 ≤ (analyze (L ++ S)).2 := by
  intro L S
  have hsplit : declIndices (L ++ S) = declIndices L ++ declIndicesFrom L.length S := by
    unfold declIndices
    rw [declIndicesFrom_append, Nat.zero_add]
  constructor
  · show (declIndices L).length ≤ (declIndices (L ++ S)).length
    rw [hsplit, List.length_append]
    exact Nat.le_add_right _ _
  · show (declIndices L).countP (fun i => isDocumented L i)
        ≤ (declIndices (L ++ S)).countP (fun i => isDocumented (L ++ S) i)
    rw [hsplit, List.countP_append]
    have hcong : (declIndices L).countP (fun i => isDocumented (L ++ S) i)
        = (declIndices L).countP (fun i => isDocumented L i) := by
      refine List.countP_congr fun x hx => ?_
      have hb := mem_declIndicesFrom hx
      rw [isDocumented_append (by omega)]
    rw [← hcong]
    exact Nat.le_add_right _ _

/-- Witness for claim C8 at a concrete one-file run: the per-file line
printed for the single file equals the line computed from that file
alone, and a repeated run over an equal file list gives equal output. -/
theorem C8_witness :
    ((mainLoop ([] ++ ("A.swift", ["func foo() \x7b\x7d"]) :: []) 0 0).2.2).getD 0 ""
        = fileLine "A.swift" 0 1
      ∧ stdoutOf [("B.swift", [])] = stdoutOf [("B.swift", [])] := by
  constructor
  · have h := C8_theorem.1 [] [] ("A.swift", ["func foo() \x7b\x7d"])
    have ha : analyze ["func foo() \x7b\x7d"] = (1, 0) := by decide
    rw [ha] at h
    exact h
  · exact C8_theorem.2 _ _ rfl
